import Mathlib

/-!
Verification of the sourcify validation service
(`services/validation/src/ValidationService.ts`) and of the chain monitor
module, as a shallow embedding in Lean.

Platform primitives that the TypeScript code calls but does not define
(`Web3.utils.keccak256`, `JSON.parse`, `JSZip`, `Buffer.toString`, and the
lazy nested-metadata regular expression) are taken as parameters of the
embedded functions; everything defined in the repository itself is
translated function by function.
-/

set_option maxHeartbeats 1000000

namespace Sourcify

/-- An association-list map with JavaScript `Map.set` / object-assignment
semantics: `jsMapSet` updates an existing key in place, otherwise appends. -/
def jsMapSet {α : Type} : List (String × α) → String → α → List (String × α)
  | [], k, v => [(k, v)]
  | e :: rest, k, v => if e.1 = k then (k, v) :: rest else e :: jsMapSet rest k v

/-- Lookup in an association-list map (`Map.get` / property read). -/
def jsMapGet {α : Type} : List (String × α) → String → Option α
  | [], _ => none
  | e :: rest, k => if e.1 = k then some e.2 else jsMapGet rest k

/-- JavaScript truthiness of a value typed `string | undefined`:
`undefined` and the empty string are falsy. -/
def strTruthy : Option String → Bool
  | some s => s != ""
  | none => false

/-- JSON values as returned by JavaScript's `JSON.parse`. Objects are
association lists; `JSON.parse` always produces objects whose keys are
pairwise distinct. -/
inductive Json where
  | null : Json
  | bool (b : Bool) : Json
  | num (n : Int) : Json
  | str (s : String) : Json
  | arr (elems : List Json) : Json
  | obj (fields : List (String × Json)) : Json
deriving Repr, Inhabited

/-- JavaScript truthiness of a JSON value: `null`, `false`, `0` and `""` are
falsy; arrays and objects are truthy even when empty. -/
def Json.truthy : Json → Bool
  | .null => false
  | .bool b => b
  | .num n => n != 0
  | .str s => s != ""
  | .arr _ => true
  | .obj _ => true

/-- Property access `o?.k`: the field of an object, `undefined` (`none`) on a
missing key or any non-object. -/
def Json.get? : Json → String → Option Json
  | .obj fields, k => jsMapGet fields k
  | _, _ => none

/-- Optional chaining `o?.k` on a possibly-undefined value. -/
def jget (o : Option Json) (k : String) : Option Json :=
  o.bind (Json.get? · k)

/-- JavaScript truthiness of a possibly-undefined JSON value. -/
def jsTruthy (o : Option Json) : Bool :=
  match o with
  | some j => j.truthy
  | none => false

/-- Strict equality `v === s` against a string literal. -/
def jsStrictEqStr (o : Option Json) (s : String) : Bool :=
  match o with
  | some (.str t) => t == s
  | _ => false

/-- Read a field that the TypeScript code types as `string`
(`content`, `keccak256`, `metadata`); non-string values are out of scope of
the embedding and read as `undefined`. -/
def Json.getStr? (j : Json) (k : String) : Option String :=
  match j.get? k with
  | some (.str s) => some s
  | _ => none

/-- The key/value pairs visited by a JavaScript `for (const k in o)` loop:
object fields, array indices, string indices; primitives yield nothing. -/
def jsonForInEntries : Json → List (String × Json)
  | .obj fields => fields
  | .arr elems => elems.enum.map fun e => (toString e.1, e.2)
  | .str s => s.data.enum.map fun e => (toString e.1, Json.str (String.mk [e.2]))
  | _ => []

/-- `Object.keys(o).length` as used by `assertObjectSize` (arrays and strings
have index keys, other primitives none). -/
def jsObjectKeysLength : Json → Nat
  | .obj fields => fields.length
  | .arr elems => elems.length
  | .str s => s.length
  | _ => 0

/-! ## Hash & variation kernel -/

/-- The character class trimmed by JavaScript's `String.prototype.trimEnd`:
WhiteSpace and LineTerminator code points. -/
def isJsWhitespace (c : Char) : Bool :=
  c = ' ' || c = '\t' || c = '\n' || c = '\r' ||
  c = Char.ofNat 0x0b || c = Char.ofNat 0x0c ||
  c = Char.ofNat 0xa0 || c = Char.ofNat 0x1680 ||
  (Char.ofNat 0x2000 ≤ c && c ≤ Char.ofNat 0x200a) ||
  c = Char.ofNat 0x2028 || c = Char.ofNat 0x2029 ||
  c = Char.ofNat 0x202f || c = Char.ofNat 0x205f ||
  c = Char.ofNat 0x3000 || c = Char.ofNat 0xfeff

/-- `content.trimEnd()`. -/
def jsTrimEnd (s : String) : String :=
  String.mk ((s.data.reverse.dropWhile isJsWhitespace).reverse)

/-- `content.replace(/\r?\n/g, "\r\n")`: every `\n`, optionally preceded by
`\r`, becomes `\r\n`; the scan is left to right as with a global regex. -/
def lfToCrlfAux : List Char → List Char
  | '\r' :: '\n' :: rest => '\r' :: '\n' :: lfToCrlfAux rest
  | '\n' :: rest => '\r' :: '\n' :: lfToCrlfAux rest
  | c :: rest => c :: lfToCrlfAux rest
  | [] => []

/-- `content.replace(/\r\n/g, "\n")`. -/
def crlfToLfAux : List Char → List Char
  | '\r' :: '\n' :: rest => '\n' :: crlfToLfAux rest
  | c :: rest => c :: crlfToLfAux rest
  | [] => []

def jsReplaceLfToCrlf (s : String) : String := String.mk (lfToCrlfAux s.data)

def jsReplaceCrlfToLf (s : String) : String := String.mk (crlfToLfAux s.data)

/-- `CONTENT_VARIATORS` (ValidationService.ts lines 13-17). -/
def CONTENT_VARIATORS : List (String → String) :=
  [fun content => content,
   fun content => jsReplaceLfToCrlf content,
   fun content => jsReplaceCrlfToLf content]

/-- `ENDING_VARIATORS` (ValidationService.ts lines 19-26). -/
def ENDING_VARIATORS : List (String → String) :=
  [fun content => content,
   fun content => jsTrimEnd content,
   fun content => jsTrimEnd content ++ "\n",
   fun content => jsTrimEnd content ++ "\r\n",
   fun content => content ++ "\n",
   fun content => content ++ "\r\n"]

/-- `PathContent`: a path (optional in the TypeScript type) plus the UTF-8
decoded text. -/
structure PathContent where
  path : Option String := none
  content : String
deriving Repr, DecidableEq

/-- `ValidationService.generateVariations`: for each content variator, for
each ending variator (in listed order), apply ending after content and pair
each result with the original path. -/
def generateVariations (pathContent : PathContent) : List PathContent :=
  let variations :=
    CONTENT_VARIATORS.flatMap fun contentVariator =>
      ENDING_VARIATORS.map fun endingVariator =>
        endingVariator (contentVariator pathContent.content)
  variations.map fun content => { content := content, path := pathContent.path }

/-! ## Archive expander -/

/-- `PathBuffer`: an input blob, a byte buffer plus its originating path. -/
structure PathBuffer where
  path : String
  buffer : List Nat
deriving Repr, DecidableEq

/-- `ValidationService.isZip`: the 4-byte ZIP signature test; out-of-range
reads are `undefined` and compare unequal. -/
def isZip (file : List Nat) : Bool :=
  (file.get? 0 == some 0x50) && (file.get? 1 == some 0x4b) &&
  ((file.get? 2 == some 0x03) || (file.get? 2 == some 0x05) || (file.get? 2 == some 0x07)) &&
  ((file.get? 3 == some 0x04) || (file.get? 3 == some 0x06) || (file.get? 3 == some 0x08))

/-- The loop of `ValidationService.unzipFiles`: each blob with the ZIP
signature is spliced out of the array and its members are collected;
members are appended after the loop and are not re-scanned. Returns the
kept (non-zip) blobs and the collected members. The platform unzipper
(JSZip) is the parameter `unzip`. -/
def unzipFilesGo (unzip : PathBuffer → List PathBuffer) :
    List PathBuffer → List PathBuffer × List PathBuffer
  | [] => ([], [])
  | f :: rest =>
    let r := unzipFilesGo unzip rest
    if isZip f.buffer then (r.1, unzip f ++ r.2) else (f :: r.1, r.2)

/-- `ValidationService.unzipFiles`: the state of the caller's array after the
call (the code mutates the array in place). -/
def unzipFiles (unzip : PathBuffer → List PathBuffer) (files : List PathBuffer) :
    List PathBuffer :=
  (unzipFilesGo unzip files).1 ++ (unzipFilesGo unzip files).2

/-! ## Hash index and reconciliation -/

/-- `ValidationService.storeByHash`: index every line-ending variation of
every candidate source under the keccak256 of its content; later variations
overwrite earlier ones with the same hash. `keccak256` is the Web3 platform
primitive, a parameter of the embedding. -/
def storeByHash (keccak256 : String → String) (files : List PathContent) :
    List (String × PathContent) :=
  files.foldl
    (fun byHash pathContent =>
      (generateVariations pathContent).foldl
        (fun m variation => jsMapSet m (keccak256 variation.content) variation)
        byHash)
    []

/-- The `MissingSources` record stored per missing source: the declared
digest (`undefined` when the manifest lacks the field) and the raw `urls`
field. -/
structure MissingInfo where
  keccak256 : Option String
  urls : Option Json
deriving Repr

/-- The `InvalidSources` record stored per invalid source. -/
structure InvalidInfo where
  expectedHash : Option String
  calculatedHash : String
  msg : String
deriving Repr

/-- The diagnostic message for an inline-content hash mismatch. -/
def HASH_MISMATCH_MSG : String :=
  "The keccak256 given in the metadata and the calculated keccak256 of the source content in metadata don\x27t match"

/-- The contribution of one manifest source entry to the four maps built by
`rearrangeSources`. -/
structure EntryOut where
  found : Option String := none
  missing : Option MissingInfo := none
  invalid : Option InvalidInfo := none
  provided : Option (Option String) := none
deriving Repr

/-- One iteration of the `rearrangeSources` loop (ValidationService.ts lines
248-276): inline content is hash-checked against the declared digest
(mismatch goes to `invalid`); otherwise the declared digest is looked up in
the hash index, recording the provided path on a hit; finally the entry goes
to `found` when a truthy content was obtained and to `missing` otherwise. -/
def processSourceEntry (keccak256 : String → String)
    (byHash : List (String × PathContent)) (sourceInfoFromMetadata : Json) :
    EntryOut :=
  let fileContent : Option String := sourceInfoFromMetadata.getStr? "content"
  let expectedHash : Option String := sourceInfoFromMetadata.getStr? "keccak256"
  if strTruthy fileContent then
    let content := fileContent.getD ""
    let contentHash := keccak256 content
    if some contentHash ≠ expectedHash then
      { invalid := some { expectedHash := expectedHash,
                          calculatedHash := contentHash,
                          msg := HASH_MISMATCH_MSG } }
    else
      { found := some content }
  else
    match expectedHash.bind (fun h => jsMapGet byHash h) with
    | some pathContent =>
      if pathContent.content ≠ "" then
        { found := some pathContent.content, provided := some pathContent.path }
      else
        { missing := some { keccak256 := expectedHash,
                            urls := sourceInfoFromMetadata.get? "urls" },
          provided := some pathContent.path }
    | none =>
      { missing := some { keccak256 := expectedHash,
                          urls := sourceInfoFromMetadata.get? "urls" } }

/-- The entries visited by `for (const sourcePath in metadata.sources)`. -/
def sourceEntries (metadata : Json) : List (String × Json) :=
  jsonForInEntries ((metadata.get? "sources").getD .null)

/-- The four maps returned by `ValidationService.rearrangeSources`. -/
structure RearrangedSources where
  foundSources : List (String × String)
  missingSources : List (String × MissingInfo)
  invalidSources : List (String × InvalidInfo)
  metadata2provided : List (String × Option String)
deriving Repr

/-- `ValidationService.rearrangeSources`: run the per-entry loop over the
manifest's declared sources in order, accumulating the four maps. -/
def rearrangeSources (keccak256 : String → String) (metadata : Json)
    (byHash : List (String × PathContent)) : RearrangedSources :=
  let entries := sourceEntries metadata
  { foundSources := entries.filterMap fun e =>
      ((processSourceEntry keccak256 byHash e.2).found).map fun c => (e.1, c),
    missingSources := entries.filterMap fun e =>
      ((processSourceEntry keccak256 byHash e.2).missing).map fun m => (e.1, m),
    invalidSources := entries.filterMap fun e =>
      ((processSourceEntry keccak256 byHash e.2).invalid).map fun i => (e.1, i),
    metadata2provided := entries.filterMap fun e =>
      ((processSourceEntry keccak256 byHash e.2).provided).map fun p => (e.1, p) }

/-! ## Metadata recognizer -/

/-- `ValidationService.isMetadata` (lines 346-349): the recognition
predicate. Each field check is JavaScript truthiness, so empty arrays and
empty objects pass. -/
def isMetadata (obj : Json) : Bool :=
  jsStrictEqStr (obj.get? "language") "Solidity" &&
  jsTruthy (jget (obj.get? "settings") "compilationTarget") &&
  jsTruthy (obj.get? "version") &&
  jsTruthy (jget (obj.get? "output") "abi") &&
  jsTruthy (jget (obj.get? "output") "userdoc") &&
  jsTruthy (jget (obj.get? "output") "devdoc") &&
  jsTruthy (obj.get? "sources")

/-- `ValidationService.extractMetadataFromString`: parse, test the
predicate, and retry once on a double-encoded (string-valued) result.
`JSON.parse` is the parameter `parseJson` (`none` = parse throws).
`JSON.parse` applied to a non-string scalar re-parses its decimal or literal
rendering, which can never be a metadata object, and throws on objects and
arrays; both cases return `null` here. -/
def extractMetadataFromString (parseJson : String → Option Json)
    (file : String) : Option Json :=
  match parseJson file with
  | none => none
  | some obj =>
    if isMetadata obj then some obj
    else
      match obj with
      | .str s =>
        match parseJson s with
        | some obj2 => if isMetadata obj2 then some obj2 else none
        | none => none
      | _ => none

/-- Naive substring search, `/pat/.test(s)` for a literal pattern. -/
def listIsPrefixOfChars : List Char → List Char → Bool
  | [], _ => true
  | _ :: _, [] => false
  | a :: as, b :: bs => a == b && listIsPrefixOfChars as bs

def listContainsSub (pat : List Char) : List Char → Bool
  | [] => listIsPrefixOfChars pat []
  | c :: rest => listIsPrefixOfChars pat (c :: rest) || listContainsSub pat rest

def strContainsSub (s pat : String) : Bool := listContainsSub pat.data s.data

/-- The literal matched by `HARDHAT_OUTPUT_FORMAT_REGEX`. -/
def HARDHAT_OUTPUT_FORMAT_MARKER : String := "\"hh-sol-build-info-1\""

/-- `ValidationService.extractHardhatMetadataAndSources`: harvest
`input.sources[*].content` as sources and run every truthy
`output.contracts[*][*].metadata` string through the recognizer, pushing the
result even when recognition failed (`null`, embedded as `Json.null`).
`none` models `JSON.parse` throwing on the bundle. -/
def extractHardhatMetadataAndSources (parseJson : String → Option Json)
    (hardhatFile : PathContent) : Option (List Json × List PathContent) :=
  match parseJson hardhatFile.content with
  | none => none
  | some hardhatJson =>
    let hardhatSourceFilesObject := jget (hardhatJson.get? "input") "sources"
    let hardhatSourceFiles :=
      (jsonForInEntries (hardhatSourceFilesObject.getD .null)).filterMap fun e =>
        match e.2.getStr? "content" with
        | some content =>
          if content ≠ "" then some { path := some e.1, content := content }
          else none
        | none => none
    let contractsObject := jget (hardhatJson.get? "output") "contracts"
    let hardhatMetadataFiles :=
      (jsonForInEntries (contractsObject.getD .null)).flatMap fun pathEntry =>
        (jsonForInEntries pathEntry.2).filterMap fun contractEntry =>
          match contractEntry.2.getStr? "metadata" with
          | some metaStr =>
            if metaStr ≠ "" then
              some ((extractMetadataFromString parseJson metaStr).getD .null)
            else none
          | none => none
    some (hardhatMetadataFiles, hardhatSourceFiles)

/-- `ValidationService.assertObjectSize` succeeds (does not throw) iff the
value is truthy and `Object.keys` has exactly the expected length. -/
def assertObjectSizeOk (object : Option Json) (expectedSize : Nat) : Bool :=
  match object with
  | none => false
  | some j => j.truthy && (jsObjectKeysLength j == expectedSize)

/-! ## splitFiles and the validation engine -/

/-- The two distinguished failures thrown by `splitFiles`, plus the generic
error a hardhat bundle with unparsable JSON raises. -/
inductive SplitError where
  | noManifestsFound
  | malformedManifests
  | otherError
deriving Repr, DecidableEq

/-- The platform primitives the validation service calls:
`Web3.utils.keccak256`, `JSON.parse` (`none` = throws), the lazy
`NESTED_METADATA_REGEX` match (`none` = no match), JSZip expansion, and
`Buffer.toString` (UTF-8 decoding). -/
structure JsPrims where
  keccak256 : String → String
  parseJson : String → Option Json
  nestedMetadataMatch : String → Option String
  unzipBuffer : PathBuffer → List PathBuffer
  bufferToString : List Nat → String

/-- Lines 196-202 of `splitFiles`: direct recognition, then recognition of a
`NESTED_METADATA_REGEX` match. -/
def recognizeMetadata (P : JsPrims) (content : String) : Option Json :=
  match extractMetadataFromString P.parseJson content with
  | some m => some m
  | none =>
    match P.nestedMetadataMatch content with
    | some matchRes => extractMetadataFromString P.parseJson matchRes
    | none => none

/-- The loop of `ValidationService.splitFiles`: returns
`(metadataFiles, sourceFiles, malformedMetadataFiles)`; `none` models the
loop throwing out of a hardhat bundle whose JSON does not parse. -/
def splitFilesGo (P : JsPrims) :
    List PathContent → Option (List Json × List PathContent × List (Option String))
  | [] => some ([], [], [])
  | file :: rest =>
    if strContainsSub file.content HARDHAT_OUTPUT_FORMAT_MARKER then
      match extractHardhatMetadataAndSources P.parseJson file with
      | none => none
      | some hh =>
        (splitFilesGo P rest).map fun r =>
          (hh.1 ++ r.1, hh.2 ++ r.2.1, r.2.2)
    else
      match recognizeMetadata P file.content with
      | some metadata =>
        (splitFilesGo P rest).map fun r =>
          if assertObjectSizeOk (jget (metadata.get? "settings") "compilationTarget") 1 then
            (metadata :: r.1, r.2.1, r.2.2)
          else
            (r.1, r.2.1, file.path :: r.2.2)
      | none =>
        (splitFilesGo P rest).map fun r => (r.1, file :: r.2.1, r.2.2)

/-- `ValidationService.splitFiles` (lines 182-233): after the loop, throw
`MalformedManifests` when any recognized manifest was discarded by the
single-target check, else `NoManifestsFound` when no manifest was
recognized. -/
def splitFiles (P : JsPrims) (files : List PathContent) :
    Except SplitError (List Json × List PathContent) :=
  match splitFilesGo P files with
  | none => .error .otherError
  | some (metadataFiles, sourceFiles, malformedMetadataFiles) =>
    if malformedMetadataFiles.length ≠ 0 then .error .malformedManifests
    else if metadataFiles.length = 0 then .error .noManifestsFound
    else .ok (metadataFiles, sourceFiles)

/-- `CheckedContract`: a manifest bound to its reconciled partitions
(`solidity` is the hash-verified `found` map, as in the core package). -/
structure CheckedContract where
  metadata : Json
  solidity : List (String × String)
  missing : List (String × MissingInfo)
  invalid : List (String × InvalidInfo)

/-- `files.map(pathBuffer => ({content: buffer.toString(), path}))`. -/
def parseBuffers (P : JsPrims) (files : List PathBuffer) : List PathContent :=
  files.map fun pathBuffer =>
    { content := P.bufferToString pathBuffer.buffer, path := some pathBuffer.path }

/-- `ValidationService.checkFiles` (lines 90-122): unzip (mutating the
caller's array), decode, split, index the candidate sources by hash, and
emit one checked contract per manifest. The second component is the state of
the caller's `files` array after the call; logging and the unused-files
report are diagnostics and are not modelled. -/
def checkFiles (P : JsPrims) (files : List PathBuffer) :
    Except SplitError (List CheckedContract) × List PathBuffer :=
  let files2 := unzipFiles P.unzipBuffer files
  let parsedFiles := parseBuffers P files2
  match splitFiles P parsedFiles with
  | .error e => (.error e, files2)
  | .ok (metadataFiles, sourceFiles) =>
    let byHash := storeByHash P.keccak256 sourceFiles
    (.ok (metadataFiles.map fun metadata =>
        let r := rearrangeSources P.keccak256 metadata byHash
        { metadata := metadata, solidity := r.foundSources,
          missing := r.missingSources, invalid := r.invalidSources }),
     files2)

/-- `ValidationService.pathContentArrayToStringMap`: keyed by the path when
truthy, by `path-<index>` otherwise; later entries overwrite earlier. -/
def pathContentArrayToStringMap (pathContentArr : List PathContent) :
    List (String × String) :=
  pathContentArr.enum.foldl
    (fun stringMapResult e =>
      match e.2.path with
      | some p =>
        if p ≠ "" then jsMapSet stringMapResult p e.2.content
        else jsMapSet stringMapResult ("path-" ++ toString e.1) e.2.content
      | none => jsMapSet stringMapResult ("path-" ++ toString e.1) e.2.content)
    []

/-- `Object.assign(target, source)`: copy the source's entries into the
target in order, overwriting on collision. -/
def objectAssign {α : Type} (target source : List (String × α)) :
    List (String × α) :=
  source.foldl (fun t e => jsMapSet t e.1 e.2) target

/-- `ValidationService.useAllSources` (lines 79-88): unzip, re-split, build
the map of all supplied sources, then `Object.assign` the contract's
hash-verified sources over it, so the verified content wins on collision.
The second component is the caller's array after the call. -/
def useAllSources (P : JsPrims) (contract : CheckedContract)
    (files : List PathBuffer) :
    Except SplitError CheckedContract × List PathBuffer :=
  let files2 := unzipFiles P.unzipBuffer files
  let parsedFiles := parseBuffers P files2
  match splitFiles P parsedFiles with
  | .error e => (.error e, files2)
  | .ok r =>
    let stringMapSourceFiles := pathContentArrayToStringMap r.2
    (.ok { metadata := contract.metadata,
           solidity := objectAssign stringMapSourceFiles contract.solidity,
           missing := contract.missing, invalid := contract.invalid },
     files2)

/-! ## Chain monitor

Pauses are JavaScript numbers; they are modelled as rationals. The module
asserts `BLOCK_PAUSE_FACTOR > 1` at startup, so a loaded monitor always has
a factor strictly greater than 1; the adaptation is stated for an arbitrary
factor. -/

/-- Default `BLOCK_PAUSE_FACTOR` (the environment override goes through the
startup assertion `factor > 1`). -/
def BLOCK_PAUSE_FACTOR : ℚ := 1.1

/-- Default `BLOCK_PAUSE_UPPER_LIMIT`: 30 seconds in milliseconds. -/
def BLOCK_PAUSE_UPPER_LIMIT : ℚ := 30 * 1000

/-- Default `BLOCK_PAUSE_LOWER_LIMIT`: 0.5 seconds in milliseconds. -/
def BLOCK_PAUSE_LOWER_LIMIT : ℚ := 0.5 * 1000

inductive AdaptOp where
  | increase
  | decrease
deriving Repr, DecidableEq

/-- `ChainMonitor.adaptBlockPause` (part_000 lines 126-131): multiply by the
factor on "increase", by its reciprocal on "decrease", then clamp with
`Math.min` against the upper limit and `Math.max` against the lower limit. -/
def adaptBlockPause (factor : ℚ) (operation : AdaptOp) (pause : ℚ) : ℚ :=
  let f := match operation with
    | .increase => factor
    | .decrease => 1 / factor
  max (min (pause * f) BLOCK_PAUSE_UPPER_LIMIT) BLOCK_PAUSE_LOWER_LIMIT

/-- A transaction as seen by the monitor: `createsContract` only reads `to`. -/
structure Tx where
  «to» : Option String
  input : String

/-- `createsContract(tx)`: `!tx.to` (absent, null or empty `to`). -/
def createsContract (tx : Tx) : Bool := !(strTruthy tx.«to»)

/-- The outcome of one `getBlock(blockNumber, true)` round trip: a mined
block with its transactions, `null` (not yet mined), or a rejected fetch. -/
inductive BlockFetchResult where
  | mined (transactions : List Tx)
  | notMined
  | fetchError

def BlockFetchResult.isMined : BlockFetchResult → Bool
  | .mined _ => true
  | _ => false

/-- The per-chain state mutated between suspensions of `processBlock`. -/
structure ChainMonitorState where
  blockNumber : Nat
  getBlockPause : ℚ

/-- One `processBlock` round (part_000 lines 88-119): on a mined block the
pause is decreased and `blockNumber` is incremented once before the
reschedule; on `null` the pause is increased and the number kept; on a fetch
error both are kept (only the catch handler runs). -/
def processBlockStep (factor : ℚ) (st : ChainMonitorState)
    (res : BlockFetchResult) : ChainMonitorState :=
  match res with
  | .mined _ =>
    { blockNumber := st.blockNumber + 1,
      getBlockPause := adaptBlockPause factor .decrease st.getBlockPause }
  | .notMined =>
    { st with getBlockPause := adaptBlockPause factor .increase st.getBlockPause }
  | .fetchError => st

/-- The monitor state after a sequence of fetch outcomes. -/
def monitorRun (factor : ℚ) (st : ChainMonitorState)
    (results : List BlockFetchResult) : ChainMonitorState :=
  results.foldl (processBlockStep factor) st

/-- The block numbers whose transactions were processed (i.e. the value of
`blockNumber` at each successfully fetched, mined block) along a sequence of
fetch outcomes. -/
def processedBlocks (factor : ℚ) (st : ChainMonitorState) :
    List BlockFetchResult → List Nat
  | [] => []
  | res :: rest =>
    match res with
    | .mined txs =>
      st.blockNumber ::
        processedBlocks factor (processBlockStep factor st (.mined txs)) rest
    | .notMined => processedBlocks factor (processBlockStep factor st .notMined) rest
    | .fetchError => processedBlocks factor (processBlockStep factor st .fetchError) rest

/-! ## Concrete objects used to exhibit behaviours

A toy hash (prefixing `#`) stands in for keccak256, and a toy parse map
stands in for `JSON.parse`; both are only ever used at the concrete inputs
below. -/

/-- A stand-in hash function for concrete evaluations. -/
def toyHash (s : String) : String := "#" ++ s

/-- A well-formed single-target manifest whose one source is provided by
hash. -/
def toyGoodMetadata : Json :=
  .obj [("language", .str "Solidity"),
        ("settings", .obj [("compilationTarget", .obj [("a.sol", .str "A")])]),
        ("version", .str "1"),
        ("output", .obj [("abi", .arr [.str "x"]),
                         ("userdoc", .obj []),
                         ("devdoc", .obj [])]),
        ("sources", .obj [("a.sol", .obj [("keccak256", .str "#src")])])]

/-- A recognized manifest with two compilation targets: discarded by the
single-target check. -/
def toyMultiTargetMetadata : Json :=
  .obj [("language", .str "Solidity"),
        ("settings", .obj [("compilationTarget",
            .obj [("a.sol", .str "A"), ("b.sol", .str "B")])]),
        ("version", .str "1"),
        ("output", .obj [("abi", .arr [.str "x"]),
                         ("userdoc", .obj []),
                         ("devdoc", .obj [])]),
        ("sources", .obj [("a.sol", .obj [("keccak256", .str "#src")])])]

/-- A JSON object with `language == "Solidity"` whose `compilationTarget`,
`output.abi`, `output.userdoc`, `output.devdoc` and `sources` are all empty
arrays or empty objects. -/
def toyEmptyFieldsMetadata : Json :=
  .obj [("language", .str "Solidity"),
        ("settings", .obj [("compilationTarget", .obj [])]),
        ("version", .str "0.8.0"),
        ("output", .obj [("abi", .arr []),
                         ("userdoc", .obj []),
                         ("devdoc", .obj [])]),
        ("sources", .obj [])]

/-- A manifest exercising all three partitions: one matching inline source,
one source missing from the index, one inline mismatch. -/
def toyPartitionMetadata : Json :=
  .obj [("language", .str "Solidity"),
        ("settings", .obj [("compilationTarget", .obj [("f.sol", .str "F")])]),
        ("version", .str "1"),
        ("output", .obj [("abi", .arr [.str "x"]),
                         ("userdoc", .obj []),
                         ("devdoc", .obj [])]),
        ("sources",
          .obj [("f.sol", .obj [("content", .str "x"), ("keccak256", .str "#x")]),
                ("m.sol", .obj [("keccak256", .str "#y"), ("urls", .arr [.str "u"])]),
                ("i.sol", .obj [("content", .str "z"), ("keccak256", .str "bad")])])]

/-- A manifest whose single source entry carries empty-string inline
content (the entry itself is `toyEmptyContentInfo`, defined below). -/
def toyEmptyContentMetadata : Json :=
  .obj [("sources",
          .obj [("e.sol", .obj [("content", .str ""),
                                ("keccak256", .str "#q"),
                                ("urls", .arr [.str "u"])])])]

/-- Toy platform primitives: `JSON.parse` recognizes the two fixed contents,
nothing is nested metadata, nothing unzips, and buffers decode through a
fixed table. -/
def toyPrims : JsPrims :=
  { keccak256 := toyHash,
    parseJson := fun s =>
      if s = "goodmeta" then some toyGoodMetadata
      else if s = "multimeta" then some toyMultiTargetMetadata
      else none,
    nestedMetadataMatch := fun _ => none,
    unzipBuffer := fun _ => [],
    bufferToString := fun b =>
      if b = [1] then "goodmeta" else if b = [2] then "multimeta" else "src" }

/-- A zip blob (signature `PK\x03\x04`). -/
def toyZipBlob : PathBuffer := { path := "a.zip", buffer := [0x50, 0x4b, 0x03, 0x04] }

/-- The candidate source file matching `toyGoodMetadata` by hash. -/
def toySourceFiles : List PathContent := [{ path := some "a.sol", content := "src" }]

/-- The single source entry of `toyEmptyContentMetadata`. -/
def toyEmptyContentInfo : Json :=
  .obj [("content", .str ""), ("keccak256", .str "#q"), ("urls", .arr [.str "u"])]

/-- A checked contract with one verified source, as `checkFiles` would
return for `toyUseAllFiles`. -/
def toyVerifiedContract : CheckedContract :=
  { metadata := toyGoodMetadata, solidity := [("a.sol", "src")],
    missing := [], invalid := [] }

/-- An input bag holding the good manifest and its source. -/
def toyUseAllFiles : List PathBuffer :=
  [{ path := "meta", buffer := [1] }, { path := "a.sol", buffer := [3] }]

/-! ## Map lemmas -/

theorem jsMapGet_jsMapSet {α : Type} (m : List (String × α)) (k : String) (v : α)
    (k' : String) :
    jsMapGet (jsMapSet m k v) k' = if k = k' then some v else jsMapGet m k' := by
  induction m with
  | nil => simp [jsMapSet, jsMapGet]
  | cons e rest ih =>
    by_cases h1 : e.1 = k
    · by_cases h2 : k = k' <;> simp [jsMapSet, jsMapGet, h1, h2]
    · by_cases h2 : e.1 = k'
      · have hk : ¬(k = k') := fun h => h1 (h2.trans h.symm)
        have hk' : ¬(k' = k) := fun h => hk h.symm
        simp [jsMapSet, jsMapGet, h1, h2, hk, hk']
      · simp [jsMapSet, jsMapGet, h1, h2, ih]

theorem jsMapGet_eq_none_iff {α : Type} (m : List (String × α)) (k : String) :
    jsMapGet m k = none ↔ k ∉ m.map Prod.fst := by
  induction m with
  | nil => simp [jsMapGet]
  | cons e rest ih =>
    by_cases h : e.1 = k
    · simp [jsMapGet, h]
    · simp only [jsMapGet, if_neg h, List.map_cons, List.mem_cons, ih]
      constructor
      · intro hnot hor
        rcases hor with h1 | h2
        · exact h h1.symm
        · exact hnot h2
      · intro hnot h2
        exact hnot (Or.inr h2)

theorem jsMapGet_foldl_set {α β : Type} (Q : String → α → Prop)
    (key : β → String) (val : β → α) (l : List β) :
    ∀ (acc : List (String × α)),
      (∀ k v, jsMapGet acc k = some v → Q k v) →
      (∀ b ∈ l, Q (key b) (val b)) →
      ∀ k v, jsMapGet (l.foldl (fun m b => jsMapSet m (key b) (val b)) acc) k = some v →
        Q k v := by
  induction l with
  | nil => intro acc hacc _ k v h; exact hacc k v h
  | cons b rest ih =>
    intro acc hacc hl k v h
    refine ih (jsMapSet acc (key b) (val b)) ?_
      (fun x hx => hl x (List.mem_cons_of_mem _ hx)) k v h
    intro k' v' h'
    rw [jsMapGet_jsMapSet] at h'
    split_ifs at h' with hk
    · cases h'
      exact hk ▸ hl b (List.mem_cons_self _ _)
    · exact hacc _ _ h'

theorem nodup_keys_inj {α : Type} {l : List (String × α)}
    (hnodup : (l.map Prod.fst).Nodup) {e1 e2 : String × α}
    (h1 : e1 ∈ l) (h2 : e2 ∈ l) (hk : e1.1 = e2.1) : e1 = e2 :=
  List.inj_on_of_nodup_map hnodup h1 h2 hk

/-! ## Hash index soundness -/

theorem storeByHash_foldl_flat (keccak256 : String → String) :
    ∀ (files : List PathContent) (acc : List (String × PathContent)),
      files.foldl
        (fun byHash pathContent =>
          (generateVariations pathContent).foldl
            (fun m variation => jsMapSet m (keccak256 variation.content) variation)
            byHash)
        acc =
      (files.flatMap generateVariations).foldl
        (fun m variation => jsMapSet m (keccak256 variation.content) variation)
        acc := by
  intro files
  induction files with
  | nil => intro acc; simp
  | cons f rest ih => intro acc; simp [List.foldl_append, ih]

/-- Every hit in the hash index built by `storeByHash` is a variation of a
supplied file whose content hashes to the queried digest. -/
theorem storeByHash_sound (keccak256 : String → String) (files : List PathContent)
    (h : String) (pc : PathContent)
    (hget : jsMapGet (storeByHash keccak256 files) h = some pc) :
    keccak256 pc.content = h ∧ ∃ f ∈ files, pc ∈ generateVariations f := by
  unfold storeByHash at hget
  rw [storeByHash_foldl_flat] at hget
  refine jsMapGet_foldl_set
    (fun k v => keccak256 v.content = k ∧ ∃ f ∈ files, v ∈ generateVariations f)
    (fun variation => keccak256 variation.content) (fun variation => variation)
    (files.flatMap generateVariations) [] ?_ ?_ h pc hget
  · intro k v hv; simp [jsMapGet] at hv
  · intro b hb
    exact ⟨rfl, List.mem_flatMap.mp hb⟩

/-! ## Claim theorems (part 1) -/

/-- C5: for every text, `generateVariations` returns exactly 18 variants,
the Cartesian product of the three content variators (identity; replace
every `\n` optionally preceded by `\r` with `\r\n`; replace every `\r\n`
with `\n`) and the six ending variators (identity; right-trim; right-trim
then append `\n`; right-trim then append `\r\n`; append `\n`; append
`\r\n`), the content variator applied first and the ending variator applied
to its output, in the stated order. -/
theorem generateVariations_spec (pc : PathContent) :
    (generateVariations pc).map PathContent.content =
      [pc.content,
       jsTrimEnd pc.content,
       jsTrimEnd pc.content ++ "\n",
       jsTrimEnd pc.content ++ "\r\n",
       pc.content ++ "\n",
       pc.content ++ "\r\n",
       jsReplaceLfToCrlf pc.content,
       jsTrimEnd (jsReplaceLfToCrlf pc.content),
       jsTrimEnd (jsReplaceLfToCrlf pc.content) ++ "\n",
       jsTrimEnd (jsReplaceLfToCrlf pc.content) ++ "\r\n",
       jsReplaceLfToCrlf pc.content ++ "\n",
       jsReplaceLfToCrlf pc.content ++ "\r\n",
       jsReplaceCrlfToLf pc.content,
       jsTrimEnd (jsReplaceCrlfToLf pc.content),
       jsTrimEnd (jsReplaceCrlfToLf pc.content) ++ "\n",
       jsTrimEnd (jsReplaceCrlfToLf pc.content) ++ "\r\n",
       jsReplaceCrlfToLf pc.content ++ "\n",
       jsReplaceCrlfToLf pc.content ++ "\r\n"] ∧
    (generateVariations pc).length = 18 ∧
    (generateVariations pc).map PathContent.path = List.replicate 18 pc.path :=
  ⟨rfl, rfl, rfl⟩

/-- C8: each adaptation of `getBlockPause` multiplies it by the pacing
factor on a null block and divides it by the same factor on a mined block,
the result is clamped so that after every adaptation
`lower_limit ≤ getBlockPause ≤ upper_limit` holds, the default limits are
500 ms and 30000 ms, and the default pacing factor satisfies the startup
assertion `factor > 1`. -/
theorem adaptBlockPause_spec (factor pause : ℚ) :
    adaptBlockPause factor .increase pause =
      max (min (pause * factor) BLOCK_PAUSE_UPPER_LIMIT) BLOCK_PAUSE_LOWER_LIMIT ∧
    adaptBlockPause factor .decrease pause =
      max (min (pause / factor) BLOCK_PAUSE_UPPER_LIMIT) BLOCK_PAUSE_LOWER_LIMIT ∧
    (∀ operation : AdaptOp,
      BLOCK_PAUSE_LOWER_LIMIT ≤ adaptBlockPause factor operation pause ∧
      adaptBlockPause factor operation pause ≤ BLOCK_PAUSE_UPPER_LIMIT) ∧
    BLOCK_PAUSE_LOWER_LIMIT = 500 ∧ BLOCK_PAUSE_UPPER_LIMIT = 30000 ∧
    (1 : ℚ) < BLOCK_PAUSE_FACTOR := by
  refine ⟨rfl, ?_, ?_, by norm_num [BLOCK_PAUSE_LOWER_LIMIT],
    by norm_num [BLOCK_PAUSE_UPPER_LIMIT], by norm_num [BLOCK_PAUSE_FACTOR]⟩
  · simp [adaptBlockPause, div_eq_mul_inv]
  · intro operation
    refine ⟨le_max_right _ _, max_le (min_le_right _ _) ?_⟩
    norm_num [BLOCK_PAUSE_LOWER_LIMIT, BLOCK_PAUSE_UPPER_LIMIT]

/-- C9: the block number is incremented exactly once after a successfully
fetched mined block and left unchanged on a null block or a fetch error, so
the processed block numbers form the contiguous strictly increasing range
starting at the initial number, one per mined fetch: no block is skipped on
success and none is re-processed on success. -/
theorem processedBlocks_spec (factor : ℚ) (st : ChainMonitorState)
    (results : List BlockFetchResult) :
    processedBlocks factor st results =
      List.range' st.blockNumber (results.countP BlockFetchResult.isMined) ∧
    (processedBlocks factor st results).Pairwise (· < ·) ∧
    (∀ txs, (processBlockStep factor st (.mined txs)).blockNumber = st.blockNumber + 1) ∧
    (processBlockStep factor st .notMined).blockNumber = st.blockNumber ∧
    (processBlockStep factor st .fetchError).blockNumber = st.blockNumber := by
  have hrange : processedBlocks factor st results =
      List.range' st.blockNumber (results.countP BlockFetchResult.isMined) := by
    induction results generalizing st with
    | nil => simp [processedBlocks]
    | cons r rest ih =>
      cases r with
      | mined txs =>
        simp only [processedBlocks, List.countP_cons, BlockFetchResult.isMined,
          if_true, ih, processBlockStep]
        rw [List.range'_succ]
      | notMined =>
        simpa [processedBlocks, List.countP_cons, BlockFetchResult.isMined,
          processBlockStep] using ih _
      | fetchError =>
        simpa [processedBlocks, List.countP_cons, BlockFetchResult.isMined,
          processBlockStep] using ih _
  refine ⟨hrange, ?_, fun txs => rfl, rfl, rfl⟩
  rw [hrange]
  exact List.pairwise_lt_range' _ _ 1 (by omega)

/-! ## Per-entry case analysis of the reconciliation loop -/

/-- Each manifest source entry lands in exactly one of `found`, `missing`,
`invalid`. -/
theorem processSourceEntry_one (keccak256 : String → String)
    (byHash : List (String × PathContent)) (info : Json) :
    ((processSourceEntry keccak256 byHash info).found.isSome ∧
     (processSourceEntry keccak256 byHash info).missing = none ∧
     (processSourceEntry keccak256 byHash info).invalid = none) ∨
    ((processSourceEntry keccak256 byHash info).found = none ∧
     (processSourceEntry keccak256 byHash info).missing.isSome ∧
     (processSourceEntry keccak256 byHash info).invalid = none) ∨
    ((processSourceEntry keccak256 byHash info).found = none ∧
     (processSourceEntry keccak256 byHash info).missing = none ∧
     (processSourceEntry keccak256 byHash info).invalid.isSome) := by
  by_cases h1 : strTruthy (info.getStr? "content") = true
  · by_cases h2 : some (keccak256 ((info.getStr? "content").getD "")) = info.getStr? "keccak256"
    · left; simp [processSourceEntry, h1, h2]
    · right; right; simp [processSourceEntry, h1, h2]
  · cases hbind : (info.getStr? "keccak256").bind (fun hsh => jsMapGet byHash hsh) with
    | none => right; left; simp [processSourceEntry, h1, hbind]
    | some pathContent =>
      by_cases h3 : pathContent.content = ""
      · right; left; simp [processSourceEntry, h1, hbind, h3]
      · left; simp [processSourceEntry, h1, hbind, h3]

/-- A `found` entry is either matching inline content or a hash-index hit. -/
theorem processSourceEntry_found_cases (keccak256 : String → String)
    (byHash : List (String × PathContent)) (info : Json) (c : String)
    (h : (processSourceEntry keccak256 byHash info).found = some c) :
    (info.getStr? "content" = some c ∧ info.getStr? "keccak256" = some (keccak256 c)) ∨
    (∃ hsh pc, info.getStr? "keccak256" = some hsh ∧ jsMapGet byHash hsh = some pc ∧
      pc.content = c) := by
  by_cases h1 : strTruthy (info.getStr? "content") = true
  · by_cases h2 : some (keccak256 ((info.getStr? "content").getD "")) = info.getStr? "keccak256"
    · simp only [processSourceEntry, h1, h2, if_true] at h
      obtain ⟨s, hs⟩ : ∃ s, info.getStr? "content" = some s := by
        cases hgc : info.getStr? "content" with
        | none => rw [hgc] at h1; simp [strTruthy] at h1
        | some s => exact ⟨s, rfl⟩
      left
      rw [hs] at h h2
      simp at h
      subst h
      exact ⟨hs, h2.symm⟩
    · simp [processSourceEntry, h1, h2] at h
  · cases hbind : (info.getStr? "keccak256").bind (fun hsh => jsMapGet byHash hsh) with
    | none => simp [processSourceEntry, h1, hbind] at h
    | some pathContent =>
      by_cases h3 : pathContent.content = ""
      · simp [processSourceEntry, h1, hbind, h3] at h
      · simp [processSourceEntry, h1, hbind, h3] at h
        right
        obtain ⟨hsh, hhsh, hget⟩ := Option.bind_eq_some.mp hbind
        exact ⟨hsh, pathContent, hhsh, hget, h⟩

/-- An entry whose `content` field is falsy is never placed in `invalid`. -/
theorem processSourceEntry_invalid_none (keccak256 : String → String)
    (byHash : List (String × PathContent)) (info : Json)
    (h1 : strTruthy (info.getStr? "content") = false) :
    (processSourceEntry keccak256 byHash info).invalid = none := by
  cases hbind : (info.getStr? "keccak256").bind (fun hsh => jsMapGet byHash hsh) with
  | none => simp [processSourceEntry, h1, hbind]
  | some pc => by_cases h3 : pc.content = "" <;> simp [processSourceEntry, h1, hbind, h3]

/-- An entry whose `content` field is falsy and whose declared digest misses
the hash index is placed in `missing` with the digest and the urls. -/
theorem processSourceEntry_missing_of_none (keccak256 : String → String)
    (byHash : List (String × PathContent)) (info : Json)
    (h1 : strTruthy (info.getStr? "content") = false)
    (hbind : (info.getStr? "keccak256").bind (fun hsh => jsMapGet byHash hsh) = none) :
    (processSourceEntry keccak256 byHash info).missing =
      some { keccak256 := info.getStr? "keccak256", urls := info.get? "urls" } := by
  simp [processSourceEntry, h1, hbind]

/-- Key membership in one partition of `rearrangeSources`. -/
theorem mem_partition_keys {γ : Type} (entries : List (String × Json))
    (sel : (String × Json) → Option γ) (k : String) :
    (k ∈ (entries.filterMap fun e => (sel e).map fun c => (e.1, c)).map Prod.fst) ↔
    ∃ e ∈ entries, e.1 = k ∧ (sel e).isSome := by
  constructor
  · intro hk
    obtain ⟨x, hx, hxk⟩ := List.mem_map.mp hk
    obtain ⟨e, he, hfe⟩ := List.mem_filterMap.mp hx
    obtain ⟨c, hc, hxc⟩ := Option.map_eq_some'.mp hfe
    refine ⟨e, he, ?_, by simp [hc]⟩
    rw [← hxk, ← hxc]
  · rintro ⟨e, he, rfl, hsome⟩
    obtain ⟨c, hc⟩ := Option.isSome_iff_exists.mp hsome
    exact List.mem_map.mpr ⟨(e.1, c), List.mem_filterMap.mpr ⟨e, he, by rw [hc]; rfl⟩, rfl⟩

/-! ## Claim theorems (part 2) -/

/-- C1: for every hash index and every manifest (whose declared source keys
are pairwise distinct, as `JSON.parse` guarantees), the key sets of the
`found`, `missing` and `invalid` maps emitted by `rearrangeSources` — the
three partitions of the checked contract `checkFiles` builds from them —
cover exactly the keys of the manifest's `sources` and are pairwise
disjoint. -/
theorem rearrangeSources_partition (keccak256 : String → String)
    (byHash : List (String × PathContent)) (metadata : Json)
    (hnodup : ((sourceEntries metadata).map Prod.fst).Nodup) :
    (∀ k, (k ∈ (rearrangeSources keccak256 metadata byHash).foundSources.map Prod.fst ∨
           k ∈ (rearrangeSources keccak256 metadata byHash).missingSources.map Prod.fst ∨
           k ∈ (rearrangeSources keccak256 metadata byHash).invalidSources.map Prod.fst) ↔
          k ∈ (sourceEntries metadata).map Prod.fst) ∧
    (∀ k, ¬(k ∈ (rearrangeSources keccak256 metadata byHash).foundSources.map Prod.fst ∧
            k ∈ (rearrangeSources keccak256 metadata byHash).missingSources.map Prod.fst)) ∧
    (∀ k, ¬(k ∈ (rearrangeSources keccak256 metadata byHash).foundSources.map Prod.fst ∧
            k ∈ (rearrangeSources keccak256 metadata byHash).invalidSources.map Prod.fst)) ∧
    (∀ k, ¬(k ∈ (rearrangeSources keccak256 metadata byHash).missingSources.map Prod.fst ∧
            k ∈ (rearrangeSources keccak256 metadata byHash).invalidSources.map Prod.fst)) := by
  have hfk : ∀ k, (k ∈ (rearrangeSources keccak256 metadata byHash).foundSources.map Prod.fst) ↔
      ∃ e ∈ sourceEntries metadata, e.1 = k ∧
        (processSourceEntry keccak256 byHash e.2).found.isSome :=
    fun k => mem_partition_keys (sourceEntries metadata)
      (fun e => (processSourceEntry keccak256 byHash e.2).found) k
  have hmk : ∀ k, (k ∈ (rearrangeSources keccak256 metadata byHash).missingSources.map Prod.fst) ↔
      ∃ e ∈ sourceEntries metadata, e.1 = k ∧
        (processSourceEntry keccak256 byHash e.2).missing.isSome :=
    fun k => mem_partition_keys (sourceEntries metadata)
      (fun e => (processSourceEntry keccak256 byHash e.2).missing) k
  have hik : ∀ k, (k ∈ (rearrangeSources keccak256 metadata byHash).invalidSources.map Prod.fst) ↔
      ∃ e ∈ sourceEntries metadata, e.1 = k ∧
        (processSourceEntry keccak256 byHash e.2).invalid.isSome :=
    fun k => mem_partition_keys (sourceEntries metadata)
      (fun e => (processSourceEntry keccak256 byHash e.2).invalid) k
  refine ⟨?_, ?_, ?_, ?_⟩
  · intro k
    constructor
    · intro hor
      rcases hor with hk | hk | hk
      · obtain ⟨e, he, hek, _⟩ := (hfk k).mp hk
        exact List.mem_map.mpr ⟨e, he, hek⟩
      · obtain ⟨e, he, hek, _⟩ := (hmk k).mp hk
        exact List.mem_map.mpr ⟨e, he, hek⟩
      · obtain ⟨e, he, hek, _⟩ := (hik k).mp hk
        exact List.mem_map.mpr ⟨e, he, hek⟩
    · intro hk
      obtain ⟨e, he, hek⟩ := List.mem_map.mp hk
      rcases processSourceEntry_one keccak256 byHash e.2 with
        ⟨hs, _, _⟩ | ⟨_, hs, _⟩ | ⟨_, _, hs⟩
      · exact Or.inl ((hfk k).mpr ⟨e, he, hek, hs⟩)
      · exact Or.inr (Or.inl ((hmk k).mpr ⟨e, he, hek, hs⟩))
      · exact Or.inr (Or.inr ((hik k).mpr ⟨e, he, hek, hs⟩))
  · rintro k ⟨hk1, hk2⟩
    obtain ⟨e1, he1, hek1, hs1⟩ := (hfk k).mp hk1
    obtain ⟨e2, he2, hek2, hs2⟩ := (hmk k).mp hk2
    obtain rfl := nodup_keys_inj hnodup he1 he2 (hek1.trans hek2.symm)
    rcases processSourceEntry_one keccak256 byHash e1.2 with
      ⟨_, hn, _⟩ | ⟨hn, _, _⟩ | ⟨hn, _, _⟩
    · rw [hn] at hs2; simp at hs2
    · rw [hn] at hs1; simp at hs1
    · rw [hn] at hs1; simp at hs1
  · rintro k ⟨hk1, hk2⟩
    obtain ⟨e1, he1, hek1, hs1⟩ := (hfk k).mp hk1
    obtain ⟨e2, he2, hek2, hs2⟩ := (hik k).mp hk2
    obtain rfl := nodup_keys_inj hnodup he1 he2 (hek1.trans hek2.symm)
    rcases processSourceEntry_one keccak256 byHash e1.2 with
      ⟨_, _, hn⟩ | ⟨hn, _, _⟩ | ⟨hn, _, _⟩
    · rw [hn] at hs2; simp at hs2
    · rw [hn] at hs1; simp at hs1
    · rw [hn] at hs1; simp at hs1
  · rintro k ⟨hk1, hk2⟩
    obtain ⟨e1, he1, hek1, hs1⟩ := (hmk k).mp hk1
    obtain ⟨e2, he2, hek2, hs2⟩ := (hik k).mp hk2
    obtain rfl := nodup_keys_inj hnodup he1 he2 (hek1.trans hek2.symm)
    rcases processSourceEntry_one keccak256 byHash e1.2 with
      ⟨_, hn, hn'⟩ | ⟨_, _, hn'⟩ | ⟨_, hn, _⟩
    · rw [hn] at hs1; simp at hs1
    · rw [hn'] at hs2; simp at hs2
    · rw [hn] at hs1; simp at hs1

/-- C1 witness: on the three-entry toy manifest, the key of the inline
source is covered and is not shared between `found` and `missing`. -/
theorem rearrangeSources_partition_witness :
    (("f.sol" ∈ (rearrangeSources toyHash toyPartitionMetadata []).foundSources.map Prod.fst ∨
      "f.sol" ∈ (rearrangeSources toyHash toyPartitionMetadata []).missingSources.map Prod.fst ∨
      "f.sol" ∈ (rearrangeSources toyHash toyPartitionMetadata []).invalidSources.map Prod.fst) ↔
     "f.sol" ∈ (sourceEntries toyPartitionMetadata).map Prod.fst) ∧
    ¬("f.sol" ∈ (rearrangeSources toyHash toyPartitionMetadata []).foundSources.map Prod.fst ∧
      "f.sol" ∈ (rearrangeSources toyHash toyPartitionMetadata []).missingSources.map Prod.fst) :=
  ⟨(rearrangeSources_partition toyHash [] toyPartitionMetadata (by decide)).1 "f.sol",
   (rearrangeSources_partition toyHash [] toyPartitionMetadata (by decide)).2.1 "f.sol"⟩

/-- C4: in every checked contract built from `rearrangeSources` over the
hash index of `storeByHash`, every key of `found` maps to content whose
keccak256 equals the digest the manifest declares for that key: either the
manifest's inline content (whose computed hash matched the declared digest)
or a line-ending variation of a supplied blob indexed under exactly that
digest. -/
theorem rearrangeSources_found_hash_verified (keccak256 : String → String)
    (sourceFiles : List PathContent) (metadata : Json) (k content : String)
    (hmem : (k, content) ∈ (rearrangeSources keccak256 metadata
        (storeByHash keccak256 sourceFiles)).foundSources) :
    ∃ info, (k, info) ∈ sourceEntries metadata ∧
      info.getStr? "keccak256" = some (keccak256 content) ∧
      (info.getStr? "content" = some content ∨
       ∃ f ∈ sourceFiles, content ∈ (generateVariations f).map PathContent.content) := by
  obtain ⟨e, he, hfe⟩ := List.mem_filterMap.mp hmem
  obtain ⟨c, hc, hxc⟩ := Option.map_eq_some'.mp hfe
  obtain ⟨k', info⟩ := e
  injection hxc with hxk hxcc
  subst hxk
  subst hxcc
  refine ⟨info, he, ?_⟩
  rcases processSourceEntry_found_cases keccak256 _ info c hc with
    ⟨hinl, hdig⟩ | ⟨hsh, pc, hdig, hget, hpc⟩
  · exact ⟨hdig, Or.inl hinl⟩
  · obtain ⟨hhash, f, hf, hvar⟩ := storeByHash_sound keccak256 sourceFiles hsh pc hget
    refine ⟨?_, Or.inr ⟨f, hf, List.mem_map.mpr ⟨pc, hvar, hpc⟩⟩⟩
    rw [hdig, ← hhash, hpc]

/-- C4 witness: the toy manifest's only source is found from the supplied
file by hash, and the conclusion holds at it. -/
theorem rearrangeSources_found_hash_verified_witness :
    ∃ info, ("a.sol", info) ∈ sourceEntries toyGoodMetadata ∧
      info.getStr? "keccak256" = some (toyHash "src") ∧
      (info.getStr? "content" = some "src" ∨
       ∃ f ∈ toySourceFiles, "src" ∈ (generateVariations f).map PathContent.content) :=
  rearrangeSources_found_hash_verified toyHash toySourceFiles toyGoodMetadata
    "a.sol" "src" (by decide)

/-- C10: a manifest source entry whose inline `content` equals the empty
string is treated as if no inline content were present: it is never
hash-checked against the empty string (so never lands in `invalid`), it is
matched by its declared digest against the hash index, and when no supplied
variation hashes to that digest it lands in `missing` with the declared
digest and urls. -/
theorem rearrangeSources_empty_inline_content (keccak256 : String → String)
    (byHash : List (String × PathContent)) (metadata : Json) (k : String) (info : Json)
    (hmem : (k, info) ∈ sourceEntries metadata)
    (hempty : info.getStr? "content" = some "")
    (hnodup : ((sourceEntries metadata).map Prod.fst).Nodup) :
    k ∉ (rearrangeSources keccak256 metadata byHash).invalidSources.map Prod.fst ∧
    ((info.getStr? "keccak256").bind (fun hsh => jsMapGet byHash hsh) = none →
      (k, ({ keccak256 := info.getStr? "keccak256",
             urls := info.get? "urls" } : MissingInfo)) ∈
        (rearrangeSources keccak256 metadata byHash).missingSources) := by
  have hfalsy : strTruthy (info.getStr? "content") = false := by
    rw [hempty]; rfl
  constructor
  · intro hk
    obtain ⟨e, he, hek, hs⟩ := mem_partition_keys (sourceEntries metadata)
      (fun e => (processSourceEntry keccak256 byHash e.2).invalid) k |>.mp hk
    obtain rfl : e = (k, info) := nodup_keys_inj hnodup he hmem hek
    rw [processSourceEntry_invalid_none keccak256 byHash info hfalsy] at hs
    simp at hs
  · intro hbind
    refine List.mem_filterMap.mpr ⟨(k, info), hmem, ?_⟩
    rw [processSourceEntry_missing_of_none keccak256 byHash info hfalsy hbind]
    rfl

/-- C10 witness: the toy empty-content entry is never invalid and lands in
`missing` with its digest and urls when the index has no hit. -/
theorem rearrangeSources_empty_inline_content_witness :
    "e.sol" ∉ (rearrangeSources toyHash toyEmptyContentMetadata []).invalidSources.map Prod.fst ∧
    ("e.sol", ({ keccak256 := some "#q",
                 urls := some (.arr [.str "u"]) } : MissingInfo)) ∈
      (rearrangeSources toyHash toyEmptyContentMetadata []).missingSources :=
  ⟨(rearrangeSources_empty_inline_content toyHash [] toyEmptyContentMetadata "e.sol"
      toyEmptyContentInfo (List.mem_singleton.mpr rfl) rfl (by decide)).1,
   (rearrangeSources_empty_inline_content toyHash [] toyEmptyContentMetadata "e.sol"
      toyEmptyContentInfo (List.mem_singleton.mpr rfl) rfl (by decide)).2 rfl⟩

/-! ## Recognition predicate characterization -/

theorem jsStrictEqStr_eq_true (o : Option Json) (s : String) :
    jsStrictEqStr o s = true ↔ o = some (Json.str s) := by
  cases o with
  | none => simp [jsStrictEqStr]
  | some j => cases j <;> simp [jsStrictEqStr]

theorem jsTruthy_eq_true (o : Option Json) :
    jsTruthy o = true ↔ ∃ v, o = some v ∧ v.truthy = true := by
  cases o <;> simp [jsTruthy]

/-! ## Claim theorems (part 3) -/

/-- C3 counterexample: a parsed JSON object whose `settings.compilationTarget`,
`output.abi`, `output.userdoc`, `output.devdoc` and `sources` are all empty
arrays or empty objects is recognized as a metadata manifest, because empty
arrays and objects are truthy in JavaScript. -/
theorem isMetadata_empty_fields_counterexample :
    isMetadata toyEmptyFieldsMetadata = true ∧
    toyEmptyFieldsMetadata.get? "sources" = some (Json.obj []) ∧
    jget (toyEmptyFieldsMetadata.get? "output") "abi" = some (Json.arr []) ∧
    jget (toyEmptyFieldsMetadata.get? "settings") "compilationTarget" =
      some (Json.obj []) :=
  ⟨rfl, rfl, rfl, rfl⟩

/-- C3 (amended): `isMetadata` recognizes an object iff `language` is
exactly the string `"Solidity"` and each of `settings.compilationTarget`,
`version`, `output.abi`, `output.userdoc`, `output.devdoc` and `sources` is
present and JavaScript-truthy; a field holding `""`, `0`, `false` or `null`
is rejected, but an empty array or empty object is truthy and accepted. -/
theorem isMetadata_spec (obj : Json) :
    isMetadata obj = true ↔
      (obj.get? "language" = some (Json.str "Solidity") ∧
       (∃ v, jget (obj.get? "settings") "compilationTarget" = some v ∧ v.truthy = true) ∧
       (∃ v, obj.get? "version" = some v ∧ v.truthy = true) ∧
       (∃ v, jget (obj.get? "output") "abi" = some v ∧ v.truthy = true) ∧
       (∃ v, jget (obj.get? "output") "userdoc" = some v ∧ v.truthy = true) ∧
       (∃ v, jget (obj.get? "output") "devdoc" = some v ∧ v.truthy = true) ∧
       (∃ v, obj.get? "sources" = some v ∧ v.truthy = true)) := by
  simp [isMetadata, Bool.and_eq_true, jsStrictEqStr_eq_true, jsTruthy_eq_true,
    and_assoc]

/-- C2 counterexample: a bag in which one recognized manifest passes the
single-target check (it is in the returned manifest list) while another
recognized manifest is discarded by it still throws `MalformedManifests`. -/
theorem splitFiles_malformed_counterexample :
    splitFilesGo toyPrims
        [{ path := some "good.json", content := "goodmeta" },
         { path := some "multi.json", content := "multimeta" }] =
      some ([toyGoodMetadata], [], [some "multi.json"]) ∧
    splitFiles toyPrims
        [{ path := some "good.json", content := "goodmeta" },
         { path := some "multi.json", content := "multimeta" }] =
      Except.error SplitError.malformedManifests :=
  ⟨rfl, rfl⟩

/-- C2 (amended): `splitFiles` throws `NoManifestsFound` exactly when zero
manifests were recognized and none was discarded by the single-entry
`settings.compilationTarget` check, and throws `MalformedManifests` exactly
when at least one recognized manifest was discarded by that check — even
when another recognized manifest passes it. -/
theorem splitFiles_error_spec (P : JsPrims) (files : List PathContent) :
    (splitFiles P files = Except.error SplitError.malformedManifests ↔
      ∃ metas srcs mal, splitFilesGo P files = some (metas, srcs, mal) ∧ mal ≠ []) ∧
    (splitFiles P files = Except.error SplitError.noManifestsFound ↔
      ∃ srcs, splitFilesGo P files = some ([], srcs, [])) := by
  cases hgo : splitFilesGo P files with
  | none => simp [splitFiles, hgo]
  | some r =>
    obtain ⟨metas, srcs, mal⟩ := r
    rcases eq_or_ne mal [] with rfl | hmal
    · rcases eq_or_ne metas [] with rfl | hmet
      · simp [splitFiles, hgo]
      · simp [splitFiles, hgo, hmet, List.length_eq_zero]
    · have hlen : mal.length ≠ 0 := fun h => hmal (List.length_eq_zero.mp h)
      simp only [splitFiles, hgo, if_pos hlen]
      constructor
      · constructor
        · intro _
          exact ⟨metas, srcs, mal, rfl, hmal⟩
        · intro _
          trivial
      · constructor
        · intro h
          exact absurd h (by simp)
        · rintro ⟨srcs', heq⟩
          rw [Option.some.injEq] at heq
          exact absurd (congrArg (fun t => t.2.2) heq) (by simpa using hmal)

/-- C6 counterexample: a bag holding one archive blob is mutated by
`checkFiles`: the archive entry is spliced out of the caller's array (its
expansion here is empty), so the array is no longer equal to its original
value. -/
theorem checkFiles_mutates_counterexample :
    (checkFiles toyPrims [toyZipBlob]).2 = [] ∧
    [toyZipBlob] ≠ ([] : List PathBuffer) := by
  exact ⟨rfl, by simp⟩

theorem unzipFilesGo_eq (unzip : PathBuffer → List PathBuffer)
    (files : List PathBuffer) :
    unzipFilesGo unzip files =
      (files.filter (fun f => !isZip f.buffer),
       (files.filter (fun f => isZip f.buffer)).flatMap unzip) := by
  induction files with
  | nil => rfl
  | cons f rest ih =>
    by_cases h : isZip f.buffer = true <;>
      simp [unzipFilesGo, ih, List.filter_cons, h]

/-- C6 (amended): `checkFiles` leaves the caller's blobs array unchanged
when no blob carries the ZIP signature; when archives are present the array
is mutated in place: the archive blobs are removed (order of the others
preserved) and their unzipped members are appended at the end. -/
theorem checkFiles_files_effect (P : JsPrims) (files : List PathBuffer) :
    (checkFiles P files).2 =
      files.filter (fun f => !isZip f.buffer) ++
        (files.filter (fun f => isZip f.buffer)).flatMap P.unzipBuffer ∧
    ((∀ f ∈ files, isZip f.buffer = false) → (checkFiles P files).2 = files) := by
  have h2 : (checkFiles P files).2 = unzipFiles P.unzipBuffer files := by
    cases h : splitFiles P (parseBuffers P (unzipFiles P.unzipBuffer files)) with
    | error e => simp [checkFiles, h]
    | ok r => simp [checkFiles, h]
  have h3 : (checkFiles P files).2 =
      files.filter (fun f => !isZip f.buffer) ++
        (files.filter (fun f => isZip f.buffer)).flatMap P.unzipBuffer := by
    rw [h2]; unfold unzipFiles; rw [unzipFilesGo_eq]
  refine ⟨h3, fun hnz => ?_⟩
  rw [h3]
  have hkeep : files.filter (fun f => !isZip f.buffer) = files :=
    List.filter_eq_self.mpr (by intro a ha; simp [hnz a ha])
  have hzips : files.filter (fun f => isZip f.buffer) = [] := by
    rw [List.filter_eq_nil_iff]
    intro a ha
    simp [hnz a ha]
  rw [hkeep, hzips]
  simp

/-- C6 witness: a bag with no archive blob is returned unchanged. -/
theorem checkFiles_files_effect_witness :
    (checkFiles toyPrims [{ path := "a.sol", buffer := [9] }]).2 =
      [{ path := "a.sol", buffer := [9] }] :=
  (checkFiles_files_effect toyPrims [{ path := "a.sol", buffer := [9] }]).2
    (by decide)

/-! ## useAllSources -/

theorem jsMapGet_objectAssign {α : Type} (source : List (String × α)) :
    ∀ (target : List (String × α)), (source.map Prod.fst).Nodup →
      ∀ k, jsMapGet (objectAssign target source) k =
        (match jsMapGet source k with
         | some v => some v
         | none => jsMapGet target k) := by
  induction source with
  | nil => intro target _ k; simp [objectAssign, jsMapGet]
  | cons e rest ih =>
    intro target hnodup k
    have hnd' : (rest.map Prod.fst).Nodup := (List.nodup_cons.mp (by simpa using hnodup)).2
    have hnotin : e.1 ∉ rest.map Prod.fst := (List.nodup_cons.mp (by simpa using hnodup)).1
    have hstep : objectAssign target (e :: rest) =
        objectAssign (jsMapSet target e.1 e.2) rest := rfl
    rw [hstep, ih _ hnd' k]
    by_cases hk : e.1 = k
    · subst hk
      have hre : jsMapGet rest e.1 = none := (jsMapGet_eq_none_iff rest e.1).mpr hnotin
      rw [hre]
      simp [jsMapGet, jsMapGet_jsMapSet]
    · have hge : jsMapGet (e :: rest) k = jsMapGet rest k := by simp [jsMapGet, hk]
      rw [hge]
      cases jsMapGet rest k with
      | some v => rfl
      | none => simp [jsMapGet_jsMapSet, hk]

/-- C7: when the re-split inside `useAllSources` succeeds (as it does on any
bag `checkFiles` succeeded on), the returned contract's source map is the
union of all supplied non-manifest sources and the contract's hash-verified
sources, the verified content winning on key collision; in particular the
result's source map extends the contract's `found` map, and the other
fields are passed through unchanged. The key set of the verified map is
pairwise distinct, as it is for every map `rearrangeSources` builds from a
parsed manifest. -/
theorem useAllSources_spec (P : JsPrims) (contract : CheckedContract)
    (files : List PathBuffer) (metas : List Json) (srcs : List PathContent)
    (hsplit : splitFiles P (parseBuffers P (unzipFiles P.unzipBuffer files)) =
      Except.ok (metas, srcs))
    (hnodup : (contract.solidity.map Prod.fst).Nodup) :
    ∃ c, (useAllSources P contract files).1 = Except.ok c ∧
      c.solidity = objectAssign (pathContentArrayToStringMap srcs) contract.solidity ∧
      (∀ k v, jsMapGet contract.solidity k = some v → jsMapGet c.solidity k = some v) ∧
      (∀ k, jsMapGet contract.solidity k = none →
        jsMapGet c.solidity k = jsMapGet (pathContentArrayToStringMap srcs) k) ∧
      c.metadata = contract.metadata ∧ c.missing = contract.missing ∧
      c.invalid = contract.invalid := by
  refine ⟨{ metadata := contract.metadata,
            solidity := objectAssign (pathContentArrayToStringMap srcs) contract.solidity,
            missing := contract.missing, invalid := contract.invalid },
          by simp [useAllSources, hsplit], rfl, ?_, ?_, rfl, rfl, rfl⟩
  · intro k v hv
    rw [jsMapGet_objectAssign contract.solidity _ hnodup k, hv]
  · intro k hnone
    rw [jsMapGet_objectAssign contract.solidity _ hnodup k, hnone]

/-- C7 witness: on the toy bag, the verified content wins over the supplied
file under the same key and the other fields pass through. -/
theorem useAllSources_spec_witness :
    ∃ c, (useAllSources toyPrims toyVerifiedContract toyUseAllFiles).1 = Except.ok c ∧
      c.solidity = objectAssign (pathContentArrayToStringMap toySourceFiles)
        toyVerifiedContract.solidity ∧
      (∀ k v, jsMapGet toyVerifiedContract.solidity k = some v →
        jsMapGet c.solidity k = some v) ∧
      (∀ k, jsMapGet toyVerifiedContract.solidity k = none →
        jsMapGet c.solidity k = jsMapGet (pathContentArrayToStringMap toySourceFiles) k) ∧
      c.metadata = toyVerifiedContract.metadata ∧
      c.missing = toyVerifiedContract.missing ∧
      c.invalid = toyVerifiedContract.invalid :=
  useAllSources_spec toyPrims toyVerifiedContract toyUseAllFiles
    [toyGoodMetadata] toySourceFiles rfl (by decide)

end Sourcify
